import Mathlib

/-!
Verification of the documentation-assembly script `AGENTS.ts`.

Strings from the script are modelled as `List Char` (one entry per UTF-16
code unit / character); the script's plain-text assembly step is modelled
over `String`.  Each definition below is a shallow embedding of the
correspondingly named function of `AGENTS.ts`.
-/

namespace Agents

/-- Conversion helper: a Lean string literal as a character list. -/
def str (s : String) : List Char := s.toList

/-! ### FenceComputer: `getFence` -/

/-- The fence marker character (backtick, code point 96). -/
def marker : Char := Char.ofNat 96

/-- Scanner for the regex match `contents.match(/`+/g)`: returns the lengths
of the maximal contiguous runs of the marker character, left to right.
`cur` is the length of the run currently being read. -/
def btRunsAux : List Char → Nat → List Nat
  | [], cur => if cur = 0 then [] else [cur]
  | c :: cs, cur =>
    if c = marker then btRunsAux cs (cur + 1)
    else if cur = 0 then btRunsAux cs 0
    else cur :: btRunsAux cs 0

/-- `contents.match(/`+/g) ?? []`, as run lengths. -/
def btRuns (contents : List Char) : List Nat := btRunsAux contents 0

/-- `matches.reduce((current, match) => Math.max(current, match.length), 0)`. -/
def maxBacktickRun (contents : List Char) : Nat :=
  (btRuns contents).foldl (fun current m => max current m) 0

/-- `getFence` from `AGENTS.ts`:
``"`".repeat(Math.max(3, max + 1))``. -/
def getFence (contents : List Char) : List Char :=
  List.replicate (max 3 (maxBacktickRun contents + 1)) marker

/-- Length of the leading run of the marker character. -/
def headRun : List Char → Nat
  | [] => 0
  | c :: cs => if c = marker then headRun cs + 1 else 0

/-- Structural specification of the longest marker run length. -/
def maxRunSpec : List Char → Nat
  | [] => 0
  | c :: cs => max (headRun (c :: cs)) (maxRunSpec cs)

theorem headRun_le_maxRunSpec (l : List Char) : headRun l ≤ maxRunSpec l := by
  cases l with
  | nil => exact Nat.le_refl 0
  | cons c cs => exact Nat.le_max_left _ _

theorem btRunsAux_foldl_max (cs : List Char) :
    ∀ cur a, (btRunsAux cs cur).foldl (fun current m => max current m) a
      = max a (max (cur + headRun cs) (maxRunSpec cs)) := by
  induction cs with
  | nil =>
    intro cur a
    by_cases h : cur = 0 <;> simp [btRunsAux, headRun, maxRunSpec, h]
  | cons c cs ih =>
    intro cur a
    by_cases hc : c = marker
    · subst hc
      rw [show btRunsAux (marker :: cs) cur = btRunsAux cs (cur + 1) from by
        simp [btRunsAux]]
      rw [ih]
      have hh := headRun_le_maxRunSpec cs
      simp only [headRun, maxRunSpec, if_pos rfl, if_true, eq_self_iff_true]
      omega
    · rw [show btRunsAux (c :: cs) cur
          = if cur = 0 then btRunsAux cs 0 else cur :: btRunsAux cs 0 from by
        simp [btRunsAux, hc]]
      have hh := headRun_le_maxRunSpec cs
      by_cases h0 : cur = 0
      · rw [if_pos h0, ih]
        simp only [headRun, maxRunSpec, if_neg hc, h0]
        omega
      · rw [if_neg h0, List.foldl_cons, ih]
        simp only [headRun, maxRunSpec, if_neg hc]
        omega

theorem maxBacktickRun_eq_spec (cs : List Char) : maxBacktickRun cs = maxRunSpec cs := by
  have hh := headRun_le_maxRunSpec cs
  simp only [maxBacktickRun, btRuns, btRunsAux_foldl_max]
  omega

theorem replicate_headRun_leading (l : List Char) :
    List.replicate (headRun l) marker <+: l := by
  induction l with
  | nil => simp [headRun]
  | cons c cs ih =>
    by_cases hc : c = marker
    · simp only [headRun, if_pos hc, List.replicate_succ, hc]
      exact List.cons_prefix_cons.mpr ⟨rfl, ih⟩
    · simp [headRun, hc]

theorem le_headRun_of_replicate_leading :
    ∀ (k : Nat) (l : List Char), List.replicate k marker <+: l → k ≤ headRun l := by
  intro k
  induction k with
  | zero => intro l _; exact Nat.zero_le _
  | succ k ih =>
    intro l h
    cases l with
    | nil =>
      rw [List.replicate_succ] at h
      exact absurd (List.prefix_nil.mp h) (by simp)
    | cons c cs =>
      rw [List.replicate_succ, List.cons_prefix_cons] at h
      obtain ⟨hcm, hpre⟩ := h
      simp only [headRun, ← hcm, if_pos rfl]
      exact Nat.succ_le_succ (ih cs hpre)

theorem le_maxRunSpec_of_replicate_inside :
    ∀ (l : List Char) (k : Nat), List.replicate k marker <:+: l → k ≤ maxRunSpec l := by
  intro l
  induction l with
  | nil =>
    intro k h
    have hk := h.length_le
    simp only [List.length_replicate, List.length_nil] at hk
    simpa [maxRunSpec] using hk
  | cons c cs ih =>
    intro k h
    rcases List.infix_cons_iff.mp h with hpre | hinf
    · exact Nat.le_trans (le_headRun_of_replicate_leading k _ hpre)
        (headRun_le_maxRunSpec (c :: cs))
    · exact Nat.le_trans (ih k hinf) (Nat.le_max_right _ _)

theorem replicate_maxRunSpec_inside (l : List Char) :
    List.replicate (maxRunSpec l) marker <:+: l := by
  induction l with
  | nil => simp [maxRunSpec]
  | cons c cs ih =>
    show List.replicate (max (headRun (c :: cs)) (maxRunSpec cs)) marker <:+: c :: cs
    rcases Nat.le_total (maxRunSpec cs) (headRun (c :: cs)) with hle | hle
    · rw [Nat.max_eq_left hle]
      exact (replicate_headRun_leading (c :: cs)).isInfix
    · rw [Nat.max_eq_right hle]
      exact List.infix_cons ih

/-- C1: for every content `C`, `getFence C` is the marker character repeated
exactly `max 3 (M + 1)` times, where `M` (computed by `maxBacktickRun`) is the
length of the longest contiguous marker run in `C` — witnessed by the facts
that a run of length `M` occurs in `C` and no longer run does — and
consequently every marker run in `C` is strictly shorter than the fence. -/
theorem c1_getFence_spec (C : List Char) :
    (getFence C).length = max 3 (maxBacktickRun C + 1) ∧
    getFence C = List.replicate ((getFence C).length) marker ∧
    List.replicate (maxBacktickRun C) marker <:+: C ∧
    (∀ k, List.replicate k marker <:+: C → k ≤ maxBacktickRun C) ∧
    (∀ k, List.replicate k marker <:+: C → k < (getFence C).length) := by
  have hlen : (getFence C).length = max 3 (maxBacktickRun C + 1) := by
    simp [getFence]
  refine ⟨hlen, by simp [getFence, hlen], ?_, ?_, ?_⟩
  · rw [maxBacktickRun_eq_spec]
    exact replicate_maxRunSpec_inside C
  · intro k hk
    rw [maxBacktickRun_eq_spec]
    exact le_maxRunSpec_of_replicate_inside C k hk
  · intro k hk
    have h1 : k ≤ maxBacktickRun C := by
      rw [maxBacktickRun_eq_spec]
      exact le_maxRunSpec_of_replicate_inside C k hk
    rw [hlen]
    omega

/-- Witness for C1 at the concrete content "a``b": the run of two markers is
found, bounded, and strictly shorter than the fence of length 3. -/
theorem c1_getFence_spec_witness :
    2 ≤ maxBacktickRun ("a``b".toList) ∧ 2 < (getFence ("a``b".toList)).length :=
  ⟨(c1_getFence_spec ("a``b".toList)).2.2.2.1 2 (by decide),
   (c1_getFence_spec ("a``b".toList)).2.2.2.2 2 (by decide)⟩

/-! ### Semantic versions: `compare` from `jsr:@std/semver`

`includeCargoDependencyFileIfExists` compares candidate packages with
`compare(parseSemVer(current.version), parseSemVer(best.version))` and breaks
ties with the JS string order on `manifest_path`.  Versions are modelled
post-parse (the spec's data model stores a `SemanticVersion`; unparseable
versions are a hard error before any comparison happens).  JS comparison
results (-1 / 0 / 1) are modelled by `Ordering` (`lt` / `eq` / `gt`). -/

/-- JS string comparison `a < b`: lexicographic on code units, a strict
prefix is smaller. -/
def strLtB : List Char → List Char → Bool
  | [], [] => false
  | [], _ :: _ => true
  | _ :: _, [] => false
  | a :: as, b :: bs => if a < b then true else if b < a then false else strLtB as bs

theorem strLtB_irrefl : ∀ l : List Char, strLtB l l = false := by
  intro l
  induction l with
  | nil => rfl
  | cons c cs ih => simp [strLtB, ih, lt_irrefl]

theorem strLtB_asymm : ∀ a b : List Char, strLtB a b = true → strLtB b a = false := by
  intro a
  induction a with
  | nil =>
    intro b h
    cases b with
    | nil => simp [strLtB] at h
    | cons d ds => rfl
  | cons c cs ih =>
    intro b h
    cases b with
    | nil => simp [strLtB] at h
    | cons d ds =>
      simp only [strLtB] at h ⊢
      by_cases h1 : c < d
      · simp [lt_asymm h1, h1]
      · by_cases h2 : d < c
        · simp [h1, h2] at h
        · simp only [h1, h2, if_false] at h
          simp [h1, h2, ih ds h]

theorem strLtB_total_eq : ∀ a b : List Char,
    strLtB a b = false → strLtB b a = false → a = b := by
  intro a
  induction a with
  | nil =>
    intro b h _
    cases b with
    | nil => rfl
    | cons d ds => simp [strLtB] at h
  | cons c cs ih =>
    intro b h h'
    cases b with
    | nil => simp [strLtB] at h'
    | cons d ds =>
      simp only [strLtB] at h h'
      by_cases h1 : c < d
      · simp [h1] at h
      · by_cases h2 : d < c
        · simp [h2, lt_asymm h2] at h'
        · have hcd : c = d := le_antisymm (not_lt.mp h2) (not_lt.mp h1)
          simp only [h1, h2, if_false] at h h'
          rw [hcd, ih ds h h']

theorem strLtB_trans : ∀ a b c : List Char,
    strLtB a b = true → strLtB b c = true → strLtB a c = true := by
  intro a
  induction a with
  | nil =>
    intro b c h1 h2
    cases b with
    | nil => simp [strLtB] at h1
    | cons y ys =>
      cases c with
      | nil => simp [strLtB] at h2
      | cons z zs => rfl
  | cons x xs ih =>
    intro b c h1 h2
    cases b with
    | nil => simp [strLtB] at h1
    | cons y ys =>
      cases c with
      | nil => simp [strLtB] at h2
      | cons z zs =>
        simp only [strLtB] at h1 h2 ⊢
        by_cases hxy : x < y
        · by_cases hyz : y < z
          · simp [lt_trans hxy hyz]
          · by_cases hzy : z < y
            · simp [hyz, hzy] at h2
            · have : y = z := le_antisymm (not_lt.mp hzy) (not_lt.mp hyz)
              simp [this ▸ hxy]
        · by_cases hyx : y < x
          · simp [hxy, hyx] at h1
          · have hxy' : x = y := le_antisymm (not_lt.mp hyx) (not_lt.mp hxy)
            simp only [hxy, hyx, if_false] at h1
            by_cases hyz : y < z
            · simp [hxy' ▸ hyz]
            · by_cases hzy : z < y
              · simp [hyz, hzy] at h2
              · have hyz' : y = z := le_antisymm (not_lt.mp hzy) (not_lt.mp hyz)
                simp only [hyz, hzy, if_false] at h2
                have htl := ih ys zs h1 h2
                subst hxy'
                subst hyz'
                simp [lt_irrefl, htl]

/-- `compareNumber` from `jsr:@std/semver`: `a === b ? 0 : a < b ? -1 : 1`. -/
def compareNumber (a b : Nat) : Ordering :=
  if a = b then .eq else if a < b then .lt else .gt

theorem compareNumber_eq_iff {a b : Nat} : compareNumber a b = .eq ↔ a = b := by
  unfold compareNumber
  split_ifs with h1 h2 <;> simp [h1]

theorem compareNumber_lt_iff {a b : Nat} : compareNumber a b = .lt ↔ a < b := by
  unfold compareNumber
  split_ifs with h1 h2 <;> simp <;> omega

theorem compareNumber_swap (a b : Nat) :
    compareNumber b a = (compareNumber a b).swap := by
  unfold compareNumber
  split_ifs with h1 h2 h3 h4 <;> simp [Ordering.swap] <;> omega

/-- A prerelease identifier of `jsr:@std/semver`: a numeric identifier (a JS
number) or an alphanumeric one (a JS string). -/
inductive PreId where
  | num (n : Nat)
  | str (s : List Char)
deriving DecidableEq, Repr

/-- JS comparison of strings, as a three-way result. -/
def compareChars (a b : List Char) : Ordering :=
  if strLtB a b then .lt else if strLtB b a then .gt else .eq

theorem compareChars_eq_iff {a b : List Char} : compareChars a b = .eq ↔ a = b := by
  unfold compareChars
  split_ifs with h1 h2
  · simp only [reduceCtorEq, false_iff]
    intro hab
    rw [hab, strLtB_irrefl] at h1
    exact Bool.false_ne_true h1
  · simp only [reduceCtorEq, false_iff]
    intro hab
    rw [hab, strLtB_irrefl] at h2
    exact Bool.false_ne_true h2
  · simp only [true_iff]
    exact strLtB_total_eq a b (Bool.not_eq_true _ ▸ h1) (Bool.not_eq_true _ ▸ h2)

theorem compareChars_swap (a b : List Char) :
    compareChars b a = (compareChars a b).swap := by
  by_cases h1 : strLtB a b
  · have h1' := strLtB_asymm a b h1
    simp [compareChars, h1, h1', Ordering.swap]
  · by_cases h2 : strLtB b a <;> simp [compareChars, h1, h2, Ordering.swap]

theorem compareChars_lt_trans {a b c : List Char} :
    compareChars a b = .lt → compareChars b c = .lt → compareChars a c = .lt := by
  unfold compareChars
  intro h1 h2
  have hab : strLtB a b = true := by
    by_cases h : strLtB a b
    · exact h
    · simp [h] at h1
  have hbc : strLtB b c = true := by
    by_cases h : strLtB b c
    · exact h
    · simp [h] at h2
  simp [strLtB_trans a b c hab hbc]

/-- One step of `compareIdentifier` from `jsr:@std/semver`: numbers compare
numerically; a string is greater than a number; strings compare as JS strings. -/
def comparePreId : PreId → PreId → Ordering
  | .num a, .num b => compareNumber a b
  | .num _, .str _ => .lt
  | .str _, .num _ => .gt
  | .str a, .str b => compareChars a b

theorem comparePreId_eq_iff {a b : PreId} : comparePreId a b = .eq ↔ a = b := by
  cases a <;> cases b <;>
    simp [comparePreId, compareNumber_eq_iff, compareChars_eq_iff]

theorem comparePreId_swap (a b : PreId) :
    comparePreId b a = (comparePreId a b).swap := by
  cases a with
  | num n =>
    cases b with
    | num m => exact compareNumber_swap n m
    | str t => rfl
  | str s =>
    cases b with
    | num m => rfl
    | str t => exact compareChars_swap s t

theorem comparePreId_lt_trans {a b c : PreId} :
    comparePreId a b = .lt → comparePreId b c = .lt → comparePreId a c = .lt := by
  cases a <;> cases b <;> cases c <;> simp [comparePreId, compareNumber_lt_iff]
  · omega
  · exact fun h1 h2 => compareChars_lt_trans h1 h2

theorem comparePreId_refl (a : PreId) : comparePreId a a = .eq :=
  comparePreId_eq_iff.mpr rfl

/-- `compareIdentifier` from `jsr:@std/semver`: element-wise comparison of
prerelease identifier lists; the list that runs out first is smaller. -/
def compareIdentifier : List PreId → List PreId → Ordering
  | [], [] => .eq
  | [], _ :: _ => .lt
  | _ :: _, [] => .gt
  | a :: as, b :: bs =>
    match comparePreId a b with
    | .eq => compareIdentifier as bs
    | o => o

theorem compareIdentifier_eq_iff :
    ∀ {a b : List PreId}, compareIdentifier a b = .eq ↔ a = b := by
  intro a
  induction a with
  | nil =>
    intro b
    cases b <;> simp [compareIdentifier]
  | cons x xs ih =>
    intro b
    cases b with
    | nil => simp [compareIdentifier]
    | cons y ys =>
      simp only [compareIdentifier]
      cases h : comparePreId x y with
      | eq =>
        have hxy := comparePreId_eq_iff.mp h
        simp [hxy, ih]
      | lt =>
        have hne : x ≠ y := by
          intro hh
          rw [hh, comparePreId_refl] at h
          simp at h
        simp [hne]
      | gt =>
        have hne : x ≠ y := by
          intro hh
          rw [hh, comparePreId_refl] at h
          simp at h
        simp [hne]

theorem compareIdentifier_swap :
    ∀ (a b : List PreId), compareIdentifier b a = (compareIdentifier a b).swap := by
  intro a
  induction a with
  | nil =>
    intro b
    cases b <;> rfl
  | cons x xs ih =>
    intro b
    cases b with
    | nil => rfl
    | cons y ys =>
      simp only [compareIdentifier]
      rw [comparePreId_swap x y]
      cases h : comparePreId x y with
      | eq => exact ih ys
      | lt => rfl
      | gt => rfl

theorem compareIdentifier_lt_trans :
    ∀ (a b c : List PreId), compareIdentifier a b = .lt →
      compareIdentifier b c = .lt → compareIdentifier a c = .lt := by
  intro a
  induction a with
  | nil =>
    intro b c h1 h2
    cases b with
    | nil => simp [compareIdentifier] at h1
    | cons y ys =>
      cases c with
      | nil => simp [compareIdentifier] at h2
      | cons z zs => rfl
  | cons x xs ih =>
    intro b c h1 h2
    cases b with
    | nil => simp [compareIdentifier] at h1
    | cons y ys =>
      cases c with
      | nil => simp [compareIdentifier] at h2
      | cons z zs =>
        simp only [compareIdentifier] at h1 h2 ⊢
        cases hxy : comparePreId x y with
        | eq =>
          have hxy' := comparePreId_eq_iff.mp hxy
          subst hxy'
          simp only [hxy] at h1
          cases hxz : comparePreId x z with
          | eq =>
            simp only [hxz] at h2
            exact ih ys zs h1 h2
          | lt => rfl
          | gt => simp only [hxz] at h2; simp at h2
        | lt =>
          cases hyz : comparePreId y z with
          | eq =>
            have hyz' := comparePreId_eq_iff.mp hyz
            subst hyz'
            simp [hxy]
          | lt =>
            have := comparePreId_lt_trans hxy hyz
            simp [this]
          | gt => simp only [hyz] at h2; simp at h2
        | gt => simp only [hxy] at h1; simp at h1

/-- `checkIdentifier` from `jsr:@std/semver`: a version with a prerelease
list sorts below the same version without one. -/
def checkIdentifier (v1 v2 : List PreId) : Ordering :=
  if v1 ≠ [] ∧ v2 = [] then .lt
  else if v1 = [] ∧ v2 ≠ [] then .gt
  else .eq

/-- The prerelease portion of `compare` from `jsr:@std/semver`:
`checkIdentifier(...) || compareIdentifier(...)`. -/
def comparePrerelease (v1 v2 : List PreId) : Ordering :=
  (checkIdentifier v1 v2).then (compareIdentifier v1 v2)

theorem comparePrerelease_eq_iff {a b : List PreId} :
    comparePrerelease a b = .eq ↔ a = b := by
  cases a <;> cases b <;>
    simp [comparePrerelease, checkIdentifier, Ordering.then, compareIdentifier_eq_iff]

theorem comparePrerelease_swap (a b : List PreId) :
    comparePrerelease b a = (comparePrerelease a b).swap := by
  cases a with
  | nil =>
    cases b with
    | nil => rfl
    | cons y ys => rfl
  | cons x xs =>
    cases b with
    | nil => rfl
    | cons y ys =>
      have h := compareIdentifier_swap (x :: xs) (y :: ys)
      simpa [comparePrerelease, checkIdentifier, Ordering.then] using h

theorem comparePrerelease_lt_trans {a b c : List PreId} :
    comparePrerelease a b = .lt → comparePrerelease b c = .lt →
      comparePrerelease a c = .lt := by
  intro h1 h2
  cases a with
  | nil =>
    cases b with
    | nil => simp [comparePrerelease, checkIdentifier, Ordering.then,
        compareIdentifier] at h1
    | cons y ys => simp [comparePrerelease, checkIdentifier, Ordering.then] at h1
  | cons x xs =>
    cases b with
    | nil =>
      cases c with
      | nil => simp [comparePrerelease, checkIdentifier, Ordering.then,
          compareIdentifier] at h2
      | cons z zs => simp [comparePrerelease, checkIdentifier, Ordering.then] at h2
    | cons y ys =>
      cases c with
      | nil => simp [comparePrerelease, checkIdentifier, Ordering.then]
      | cons z zs =>
        simp only [comparePrerelease, checkIdentifier, Ordering.then] at h1 h2 ⊢
        simp only [ne_eq, reduceCtorEq, not_false_eq_true, and_false, false_and,
          if_false] at h1 h2 ⊢
        exact compareIdentifier_lt_trans _ _ _ h1 h2

/-- A parsed semantic version, as produced by `parse` from `jsr:@std/semver`
(`build` metadata is carried but ignored by `compare`). -/
structure SemVer where
  major : Nat
  minor : Nat
  patch : Nat
  prerelease : List PreId
  build : List (List Char)
deriving DecidableEq, Repr

theorem then_eq_lt {x y : Ordering} :
    x.then y = .lt ↔ x = .lt ∨ (x = .eq ∧ y = .lt) := by
  cases x <;> simp [Ordering.then]

theorem then_eq_eq {x y : Ordering} :
    x.then y = .eq ↔ x = .eq ∧ y = .eq := by
  cases x <;> simp [Ordering.then]

theorem then_swap {x y : Ordering} : (x.then y).swap = x.swap.then y.swap := by
  cases x <;> cases y <;> rfl

/-- `compare` from `jsr:@std/semver`: major, minor and patch numerically,
then the prerelease comparison; build metadata is ignored. -/
def compareSemVer (a b : SemVer) : Ordering :=
  (compareNumber a.major b.major).then
    ((compareNumber a.minor b.minor).then
      ((compareNumber a.patch b.patch).then
        (comparePrerelease a.prerelease b.prerelease)))

theorem compareSemVer_eq_iff {a b : SemVer} :
    compareSemVer a b = .eq ↔
      a.major = b.major ∧ a.minor = b.minor ∧ a.patch = b.patch ∧
        a.prerelease = b.prerelease := by
  unfold compareSemVer
  simp [then_eq_eq, compareNumber_eq_iff, comparePrerelease_eq_iff]

theorem compareSemVer_refl (a : SemVer) : compareSemVer a a = .eq :=
  compareSemVer_eq_iff.mpr ⟨rfl, rfl, rfl, rfl⟩

theorem compareSemVer_swap (a b : SemVer) :
    compareSemVer b a = (compareSemVer a b).swap := by
  unfold compareSemVer
  rw [then_swap, then_swap, then_swap, ← compareNumber_swap, ← compareNumber_swap,
    ← compareNumber_swap, ← comparePrerelease_swap]

theorem compareSemVer_gt_iff {a b : SemVer} :
    compareSemVer a b = .gt ↔ compareSemVer b a = .lt := by
  rw [compareSemVer_swap b a]
  cases compareSemVer b a <;> simp [Ordering.swap]

theorem compareSemVer_congr_left {a b : SemVer} (h : compareSemVer a b = .eq)
    (c : SemVer) : compareSemVer a c = compareSemVer b c := by
  obtain ⟨h1, h2, h3, h4⟩ := compareSemVer_eq_iff.mp h
  unfold compareSemVer
  rw [h1, h2, h3, h4]

theorem compareSemVer_lt_trans {a b c : SemVer} :
    compareSemVer a b = .lt → compareSemVer b c = .lt →
      compareSemVer a c = .lt := by
  intro h1 h2
  unfold compareSemVer at h1 h2 ⊢
  simp only [then_eq_lt, compareNumber_lt_iff, compareNumber_eq_iff] at h1 h2 ⊢
  rcases h1 with h1 | ⟨e1, h1⟩
  · rcases h2 with h2 | ⟨e2, h2⟩
    · left; omega
    · left; omega
  · rcases h2 with h2 | ⟨e2, h2⟩
    · left; omega
    · right
      refine ⟨by omega, ?_⟩
      rcases h1 with h1 | ⟨f1, h1⟩ <;> rcases h2 with h2 | ⟨f2, h2⟩
      · left; omega
      · left; omega
      · left; omega
      · right
        refine ⟨by omega, ?_⟩
        rcases h1 with h1 | ⟨g1, h1⟩ <;> rcases h2 with h2 | ⟨g2, h2⟩
        · left; omega
        · left; omega
        · left; omega
        · right
          exact ⟨by omega, comparePrerelease_lt_trans h1 h2⟩

/-! ### VersionSelector: the `candidates.reduce` of
`includeCargoDependencyFileIfExists` -/

/-- A record of `cargo metadata`'s `packages` array (`CargoPackage` in
`AGENTS.ts`), with the version already parsed. -/
structure CargoPackage where
  id : List Char
  name : List Char
  version : SemVer
  manifest_path : List Char
deriving DecidableEq, Repr

/-- One step of the `candidates.reduce((best, current) => ...)` fold:
take `current` when its version compares greater, or compares equal with a
strictly greater manifest path; otherwise keep `best`. -/
def selectStep (best : Option CargoPackage) (current : CargoPackage) :
    Option CargoPackage :=
  match best with
  | none => some current
  | some b =>
    if compareSemVer current.version b.version = .gt then some current
    else if compareSemVer current.version b.version = .eq ∧
        strLtB b.manifest_path current.manifest_path = true then some current
    else some b

/-- The whole `reduce` with its `null` seed. -/
def select (candidates : List CargoPackage) : Option CargoPackage :=
  candidates.foldl selectStep none

/-- `current` replaces `best` in the fold. -/
def beats (current best : CargoPackage) : Prop :=
  compareSemVer current.version best.version = .gt ∨
    (compareSemVer current.version best.version = .eq ∧
      strLtB best.manifest_path current.manifest_path = true)

instance (current best : CargoPackage) : Decidable (beats current best) := by
  unfold beats
  infer_instance

theorem selectStep_some (b current : CargoPackage) :
    selectStep (some b) current = some (if beats current b then current else b) := by
  by_cases h1 : compareSemVer current.version b.version = .gt
  · simp [selectStep, beats, h1]
  · by_cases h2 : compareSemVer current.version b.version = .eq ∧
        strLtB b.manifest_path current.manifest_path = true
    · simp [selectStep, beats, h1, h2]
    · simp [selectStep, beats, h1, h2]

theorem not_beats_iff {x y : CargoPackage} :
    ¬ beats x y ↔ compareSemVer x.version y.version = .lt ∨
      (compareSemVer x.version y.version = .eq ∧
        strLtB y.manifest_path x.manifest_path = false) := by
  unfold beats
  cases h : compareSemVer x.version y.version <;> simp [h]

theorem beats_irrefl (a : CargoPackage) : ¬ beats a a := by
  intro h
  rcases h with h | ⟨-, h⟩
  · rw [compareSemVer_refl] at h
    exact Ordering.noConfusion h
  · rw [strLtB_irrefl] at h
    exact Bool.false_ne_true h

theorem compareSemVer_congr_right {b r : SemVer} (h : compareSemVer b r = .eq)
    (c : SemVer) : compareSemVer c b = compareSemVer c r := by
  obtain ⟨h1, h2, h3, h4⟩ := compareSemVer_eq_iff.mp h
  unfold compareSemVer
  rw [h1, h2, h3, h4]

theorem beats_trans {a b c : CargoPackage} :
    beats a b → beats b c → beats a c := by
  intro h1 h2
  rcases h1 with hv1 | ⟨hv1, hp1⟩ <;> rcases h2 with hv2 | ⟨hv2, hp2⟩
  · exact Or.inl (compareSemVer_gt_iff.mpr
      (compareSemVer_lt_trans (compareSemVer_gt_iff.mp hv2)
        (compareSemVer_gt_iff.mp hv1)))
  · exact Or.inl ((compareSemVer_congr_right hv2 a.version) ▸ hv1)
  · exact Or.inl ((compareSemVer_congr_left hv1 c.version).symm ▸ hv2)
  · refine Or.inr ⟨(compareSemVer_congr_left hv1 c.version).symm ▸ hv2, ?_⟩
    exact strLtB_trans _ _ _ hp2 hp1

theorem not_beats_trans {c b r : CargoPackage} :
    ¬ beats c b → ¬ beats b r → ¬ beats c r := by
  intro h1 h2 hcr
  rcases not_beats_iff.mp h1 with hv1 | ⟨hv1, hp1⟩ <;>
    rcases not_beats_iff.mp h2 with hv2 | ⟨hv2, hp2⟩
  · have hlt := compareSemVer_lt_trans hv1 hv2
    rcases hcr with hg | ⟨he, -⟩
    · rw [hlt] at hg; exact Ordering.noConfusion hg
    · rw [hlt] at he; exact Ordering.noConfusion he
  · have hlt : compareSemVer c.version r.version = .lt :=
      (compareSemVer_congr_right hv2 c.version) ▸ hv1
    rcases hcr with hg | ⟨he, -⟩
    · rw [hlt] at hg; exact Ordering.noConfusion hg
    · rw [hlt] at he; exact Ordering.noConfusion he
  · have hlt : compareSemVer c.version r.version = .lt :=
      (compareSemVer_congr_left hv1 r.version).symm ▸ hv2
    rcases hcr with hg | ⟨he, -⟩
    · rw [hlt] at hg; exact Ordering.noConfusion hg
    · rw [hlt] at he; exact Ordering.noConfusion he
  · have heq : compareSemVer c.version r.version = .eq :=
      (compareSemVer_congr_left hv1 r.version).symm ▸ hv2
    rcases hcr with hg | ⟨-, hpath⟩
    · rw [heq] at hg; exact Ordering.noConfusion hg
    · by_cases hcb : strLtB c.manifest_path b.manifest_path = true
      · have hrb := strLtB_trans _ _ _ hpath hcb
        rw [hrb] at hp2
        exact Bool.noConfusion hp2
      · simp only [Bool.not_eq_true] at hcb
        have hpe : c.manifest_path = b.manifest_path := strLtB_total_eq _ _ hcb hp1
        rw [hpe] at hpath
        rw [hpath] at hp2
        exact Bool.noConfusion hp2

theorem foldl_selectStep_mem_max :
    ∀ (cs : List CargoPackage) (b : CargoPackage),
      ∃ r, List.foldl selectStep (some b) cs = some r ∧ r ∈ b :: cs ∧
        ∀ x ∈ b :: cs, ¬ beats x r := by
  intro cs
  induction cs with
  | nil =>
    intro b
    refine ⟨b, rfl, List.mem_cons_self b [], ?_⟩
    intro x hx
    rcases List.mem_cons.mp hx with h | h
    · subst h; exact beats_irrefl x
    · cases h
  | cons c cs ih =>
    intro b
    rw [List.foldl_cons, selectStep_some]
    by_cases hb : beats c b
    · rw [if_pos hb]
      obtain ⟨r, hr, hmem, hmax⟩ := ih c
      refine ⟨r, hr, ?_, ?_⟩
      · rcases List.mem_cons.mp hmem with h | h
        · exact List.mem_cons.mpr (Or.inr (List.mem_cons.mpr (Or.inl h)))
        · exact List.mem_cons.mpr (Or.inr (List.mem_cons.mpr (Or.inr h)))
      · intro x hx
        rcases List.mem_cons.mp hx with h | h
        · subst h
          intro hxr
          exact hmax c (List.mem_cons_self c cs) (beats_trans hb hxr)
        · exact hmax x h
    · rw [if_neg hb]
      obtain ⟨r, hr, hmem, hmax⟩ := ih b
      refine ⟨r, hr, ?_, ?_⟩
      · rcases List.mem_cons.mp hmem with h | h
        · exact List.mem_cons.mpr (Or.inl h)
        · exact List.mem_cons.mpr (Or.inr (List.mem_cons.mpr (Or.inr h)))
      · intro x hx
        rcases List.mem_cons.mp hx with h | h
        · subst h; exact hmax x (List.mem_cons_self x cs)
        · rcases List.mem_cons.mp h with h' | h'
          · subst h'
            exact not_beats_trans hb (hmax b (List.mem_cons_self b cs))
          · exact hmax x (List.mem_cons.mpr (Or.inr h'))

theorem select_spec (l : List CargoPackage) (h : l ≠ []) :
    ∃ r, select l = some r ∧ r ∈ l ∧ ∀ x ∈ l, ¬ beats x r := by
  cases l with
  | nil => exact absurd rfl h
  | cons c cs => exact foldl_selectStep_mem_max cs c

/-- C9: folding `selectStep` from the `null` seed over a non-empty candidate
list always produces a package, so the `cargo package not found` error branch
after the fold is unreachable under the non-empty precondition. -/
theorem c9_select_isSome (candidates : List CargoPackage)
    (h : candidates ≠ []) : ∃ r, select candidates = some r := by
  obtain ⟨r, hr, -, -⟩ := select_spec candidates h
  exact ⟨r, hr⟩

/-- Sample version with empty prerelease and build. -/
def sampleVer (maj min pat : Nat) : SemVer := ⟨maj, min, pat, [], []⟩

/-- Sample candidate with manifest path "/a/pkg". -/
def pkgA : CargoPackage :=
  ⟨"a-id".toList, "errgonomic".toList, sampleVer 1 0 0, "/a/pkg".toList⟩

/-- Sample candidate with manifest path "/b/pkg". -/
def pkgB : CargoPackage :=
  ⟨"b-id".toList, "errgonomic".toList, sampleVer 1 0 0, "/b/pkg".toList⟩

/-- Witness for C9 on a concrete singleton candidate list. -/
theorem c9_select_isSome_witness : ∃ r, select [pkgA] = some r :=
  c9_select_isSome [pkgA] (by simp)

/-- C2: on a non-empty candidate list, the selector returns a candidate whose
semantic-version precedence is maximal, and whose manifest path is
lexicographically greatest among the candidates of equal version precedence. -/
theorem c2_select_max (candidates : List CargoPackage) (h : candidates ≠ []) :
    ∃ r, select candidates = some r ∧ r ∈ candidates ∧
      (∀ c ∈ candidates, compareSemVer c.version r.version ≠ .gt) ∧
      (∀ c ∈ candidates, compareSemVer c.version r.version = .eq →
        strLtB r.manifest_path c.manifest_path = false) := by
  obtain ⟨r, hr, hmem, hmax⟩ := select_spec candidates h
  refine ⟨r, hr, hmem, ?_, ?_⟩
  · intro x hx hgt
    exact hmax x hx (Or.inl hgt)
  · intro x hx heq
    rcases not_beats_iff.mp (hmax x hx) with h' | ⟨-, h'⟩
    · rw [heq] at h'
      exact Ordering.noConfusion h'
    · exact h'

/-- Witness for C2 on the spec's tie-break example: two candidates at version
1.0.0 with manifest paths "/a/pkg" and "/b/pkg". -/
theorem c2_select_max_witness :
    ∃ r, select [pkgA, pkgB] = some r ∧ r ∈ [pkgA, pkgB] ∧
      (∀ c ∈ [pkgA, pkgB], compareSemVer c.version r.version ≠ .gt) ∧
      (∀ c ∈ [pkgA, pkgB], compareSemVer c.version r.version = .eq →
        strLtB r.manifest_path c.manifest_path = false) :=
  c2_select_max [pkgA, pkgB] (by simp)

/-- First of two fully tying candidates (same version, same manifest path,
different id). -/
def pkgDupOne : CargoPackage :=
  ⟨"id-one".toList, "dup".toList, sampleVer 1 0 0, "/m/pkg".toList⟩

/-- Second of two fully tying candidates. -/
def pkgDupTwo : CargoPackage :=
  ⟨"id-two".toList, "dup".toList, sampleVer 1 0 0, "/m/pkg".toList⟩

/-- C3 counterexample: with two distinct records that tie on both version
precedence and manifest path, the fold keeps the first encountered, so
permuting the candidate collection changes the selected record. -/
theorem c3_counterexample :
    [pkgDupOne, pkgDupTwo].Perm [pkgDupTwo, pkgDupOne] ∧
      select [pkgDupOne, pkgDupTwo] ≠ select [pkgDupTwo, pkgDupOne] := by
  constructor
  · exact List.Perm.swap _ _ _
  · decide

/-- C3 (amended): the selection is order-independent for every candidate
collection in which no two distinct candidates tie on both version
precedence and manifest path. -/
theorem c3_select_perm (l1 l2 : List CargoPackage) (hperm : l1.Perm l2)
    (hinj : ∀ a ∈ l1, ∀ b ∈ l1, compareSemVer a.version b.version = .eq →
      a.manifest_path = b.manifest_path → a = b) :
    select l1 = select l2 := by
  by_cases hnil : l1 = []
  · subst hnil
    have h2 : l2 = [] := hperm.symm.eq_nil
    rw [h2]
  · have hnil2 : l2 ≠ [] := by
      intro hh
      subst hh
      exact hnil hperm.eq_nil
    obtain ⟨r1, h1, m1, x1⟩ := select_spec l1 hnil
    obtain ⟨r2, h2, m2, x2⟩ := select_spec l2 hnil2
    rw [h1, h2]
    have m2' : r2 ∈ l1 := hperm.mem_iff.mpr m2
    have m1' : r1 ∈ l2 := hperm.mem_iff.mp m1
    have hb1 : ¬ beats r2 r1 := x1 r2 m2'
    have hb2 : ¬ beats r1 r2 := x2 r1 m1'
    rcases not_beats_iff.mp hb1 with hv | ⟨hv, hp⟩
    · exact absurd (Or.inl (compareSemVer_gt_iff.mpr hv)) hb2
    · rcases not_beats_iff.mp hb2 with hv' | ⟨hv', hp'⟩
      · have heq : compareSemVer r1.version r2.version = .eq := by
          rw [compareSemVer_swap r2.version r1.version, hv]
          rfl
        rw [heq] at hv'
        exact absurd hv' (by simp)
      · have hpe : r1.manifest_path = r2.manifest_path :=
          strLtB_total_eq _ _ hp hp'
        rw [hinj r1 m1 r2 m2' hv' hpe]

/-- Witness for C3's amended theorem at a concrete permutation. -/
theorem c3_select_perm_witness : select [pkgA, pkgB] = select [pkgB, pkgA] :=
  c3_select_perm [pkgA, pkgB] [pkgB, pkgA] (List.Perm.swap _ _ _) (by decide)

/-! ### AssemblyOrchestrator: the `parts` / `content` assembly -/

/-- The filter predicate `(part): part is string => !!part && part.length > 0`
applied to each settled producer result (`null` and `""` are falsy). -/
def keepPart : Option String → Bool
  | none => false
  | some part => decide (part.length > 0)

/-- The settled `Promise.all` results, in declaration order, after the
filter: `(await Promise.all([...])).filter(...)`. -/
def parts (results : List (Option String)) : List String :=
  (results.filter keepPart).filterMap id

/-- `const content = parts.join("\n\n")`. -/
def content (results : List (Option String)) : String :=
  String.intercalate "\n\n" (parts results)

theorem parts_map_some :
    ∀ (ss : List String), (∀ s ∈ ss, s.length > 0) → parts (ss.map some) = ss := by
  intro ss
  induction ss with
  | nil => intro _; rfl
  | cons s ss ih =>
    intro h
    have hs : keepPart (some s) = true := by
      simp only [keepPart, decide_eq_true_eq]
      exact h s (List.mem_cons_self s ss)
    have ih' := ih (fun x hx => h x (List.mem_cons.mpr (Or.inr hx)))
    simp only [List.map_cons, parts, List.filter_cons, hs, if_true]
    simp only [parts] at ih'
    simp [ih']

/-- C4: the assembled artifact is built from the declaration-ordered results;
an absent (`null`) entry contributes nothing and no separator, an empty
entry contributes nothing and no separator, and when every result is present
and non-empty the artifact is exactly the results joined by one blank-line
separator each. -/
theorem c4_content_assembly :
    (∀ l1 l2 : List (Option String),
      content (l1 ++ none :: l2) = content (l1 ++ l2)) ∧
    (∀ l1 l2 : List (Option String),
      content (l1 ++ some "" :: l2) = content (l1 ++ l2)) ∧
    (∀ ss : List String, (∀ s ∈ ss, s.length > 0) →
      content (ss.map some) = String.intercalate "\n\n" ss) := by
  refine ⟨?_, ?_, ?_⟩
  · intro l1 l2
    have hn : keepPart none = false := rfl
    simp [content, parts, List.filter_append, List.filter_cons, hn]
  · intro l1 l2
    have he : keepPart (some "") = false := by decide
    simp [content, parts, List.filter_append, List.filter_cons, he]
  · intro ss h
    rw [content, parts_map_some ss h]

/-- Witness for C4 at two concrete non-empty results. -/
theorem c4_content_assembly_witness :
    content (["x", "y"].map some) = String.intercalate "\n\n" ["x", "y"] :=
  c4_content_assembly.2.2 ["x", "y"] (by decide)

/-! ### PackageMetadataCache: `loadCargoMetadata`

The closure over `cached` in `AGENTS.ts` is modelled as explicit state.
`cached` holds the identity of the shared promise (represented by the
invocation count at its creation; the actual first fetch installs promise
`0`), and `invocations` counts how many times the external `cargo metadata`
command has been started.  The body of `loadCargoMetadata` checks `cached`
and installs the new promise synchronously — before any suspension point —
so each call is one atomic step of the single-threaded run, and concurrent
callers are exactly a sequence of such steps. -/

/-- The closure state of `loadCargoMetadata`. -/
structure MetadataCache where
  cached : Option Nat
  invocations : Nat
deriving DecidableEq, Repr

/-- One call to `loadCargoMetadata`: return the cached promise if present,
otherwise start the external command (counted) and cache its promise. -/
def loadCargoMetadata (s : MetadataCache) : MetadataCache × Nat :=
  match s.cached with
  | some p => (s, p)
  | none => (⟨some s.invocations, s.invocations + 1⟩, s.invocations)

/-- A run of `n` successive calls, returning the final state and the promise
each caller received, in call order. -/
def runFetches : Nat → MetadataCache → MetadataCache × List Nat
  | 0, s => (s, [])
  | n + 1, s =>
    ((runFetches n (loadCargoMetadata s).1).1,
      (loadCargoMetadata s).2 :: (runFetches n (loadCargoMetadata s).1).2)

theorem runFetches_cached :
    ∀ (n : Nat) (s : MetadataCache) (p : Nat), s.cached = some p →
      runFetches n s = (s, List.replicate n p) := by
  intro n
  induction n with
  | zero => intro s p _; simp [runFetches]
  | succ n ih =>
    intro s p h
    have hstep : loadCargoMetadata s = (s, p) := by
      simp [loadCargoMetadata, h]
    simp [runFetches, hstep, ih s p h, List.replicate_succ]

/-- C5: starting from the fresh closure state, any positive number of calls
to `loadCargoMetadata` starts the external command exactly once, every
caller receives the one shared promise installed by the first call, and the
cache is never invalidated within the run. -/
theorem c5_loadCargoMetadata_once (n : Nat) (h : 1 ≤ n) :
    (runFetches n ⟨none, 0⟩).1.invocations = 1 ∧
    (runFetches n ⟨none, 0⟩).1.cached = some 0 ∧
    (runFetches n ⟨none, 0⟩).2 = List.replicate n 0 := by
  cases n with
  | zero => exact absurd h (by decide)
  | succ m =>
    have hstep : loadCargoMetadata ⟨none, 0⟩ = (⟨some 0, 1⟩, 0) := rfl
    have hrest := runFetches_cached m ⟨some 0, 1⟩ 0 rfl
    simp [runFetches, hstep, hrest, List.replicate_succ]

/-- Witness for C5 at three calls. -/
theorem c5_loadCargoMetadata_once_witness :
    (runFetches 3 ⟨none, 0⟩).1.invocations = 1 ∧
    (runFetches 3 ⟨none, 0⟩).1.cached = some 0 ∧
    (runFetches 3 ⟨none, 0⟩).2 = List.replicate 3 0 :=
  c5_loadCargoMetadata_once 3 (by decide)

/-! ### SectionRenderer: `renderCodeFile` and `getLanguageIdentifier` -/

/-- Code points treated as whitespace by JS `trimEnd` (ECMAScript WhiteSpace
and LineTerminator): TAB, LF, VT, FF, CR, SP, NBSP, LS, PS, ZWNBSP and the
Unicode space separators outside the U+2000..U+200A range. -/
def jsWhitespaceCodes : List Nat :=
  [9, 10, 11, 12, 13, 32, 160, 5760, 8232, 8233, 8239, 8287, 12288, 65279]

/-- Whether `contents.trimEnd()` strips this character. -/
def isJsWhitespace (c : Char) : Bool :=
  jsWhitespaceCodes.contains c.toNat ||
    (decide (8192 ≤ c.toNat) && decide (c.toNat ≤ 8202))

/-- `contents.trimEnd()`: remove the maximal whitespace suffix. -/
def trimEnd (cs : List Char) : List Char :=
  (cs.reverse.dropWhile isJsWhitespace).reverse

theorem trimEnd_spec (cs : List Char) :
    ∃ ws, cs = trimEnd cs ++ ws ∧ ws.all isJsWhitespace = true := by
  refine ⟨(cs.reverse.takeWhile isJsWhitespace).reverse, ?_, ?_⟩
  · calc
      cs = cs.reverse.reverse := (List.reverse_reverse cs).symm
      _ = (cs.reverse.takeWhile isJsWhitespace ++
            cs.reverse.dropWhile isJsWhitespace).reverse := by
        rw [List.takeWhile_append_dropWhile]
      _ = trimEnd cs ++ (cs.reverse.takeWhile isJsWhitespace).reverse := by
        rw [List.reverse_append]
        rfl
  · rw [List.all_eq_true]
    intro c hc
    exact List.mem_takeWhile_imp (List.mem_reverse.mp hc)

/-- Errors raised by the script (`throw new Error(...)`) and by external
collaborators; OS and transform failures carry an abstract code. -/
inductive RunError where
  | unknownLanguage (ext : List Char)
  | cargoPackageNotFound (dependencyName : List Char)
  | os (code : Nat)
  | transform (code : Nat)
deriving DecidableEq, Repr

/-- The backward-scan state of `extname` (ported in `jsr:@std/path` from
Node's posix `extname`); `fin` is the variable called `end` there. -/
structure ExtSt where
  startDot : Option Nat
  startPart : Nat
  fin : Option Nat
  matchedSlash : Bool
  preDotState : Int
deriving DecidableEq, Repr

/-- The backward loop of `extname`: processes index `i` when called with
counter `i + 1`, stopping early at a path separator once a basename
character has been seen. -/
def extnameGo (path : List Char) : Nat → ExtSt → ExtSt
  | 0, s => s
  | i + 1, s =>
    let c := path.getD i ' '
    if c = '/' then
      if s.matchedSlash = false then { s with startPart := i + 1 }
      else extnameGo path i s
    else
      let s1 := if s.fin = none then { s with matchedSlash := false, fin := some (i + 1) }
        else s
      let s2 :=
        if c = '.' then
          match s1.startDot with
          | none => { s1 with startDot := some i }
          | some _ => if s1.preDotState ≠ 1 then { s1 with preDotState := 1 } else s1
        else if s1.startDot ≠ none then { s1 with preDotState := -1 } else s1
      extnameGo path i s2

/-- `extname` from `jsr:@std/path`: the extension of the last path
component, empty for dotfiles, `".."` components and extensionless names. -/
def extname (path : List Char) : List Char :=
  let s := extnameGo path path.length ⟨none, 0, none, true, 0⟩
  match s.startDot, s.fin with
  | some sd, some e =>
    if s.preDotState = 0 ∨
        (s.preDotState = 1 ∧ sd = e - 1 ∧ sd = s.startPart + 1) then []
    else (path.drop sd).take (e - sd)
  | _, _ => []

/-- `getLanguageIdentifier` from `AGENTS.ts`: the fixed extension switch;
anything else throws. -/
def getLanguageIdentifier (path : List Char) : Except RunError (List Char) :=
  let extension := extname path
  if extension = ".ts".toList then .ok "typescript".toList
  else if extension = ".rs".toList then .ok "rust".toList
  else if extension = ".xml".toList then .ok "xml".toList
  else if extension = ".toml".toList then .ok "toml".toList
  else .error (.unknownLanguage extension)

/-- `renderCodeFile` from `AGENTS.ts`. -/
def renderCodeFile (path contents : List Char) : Except RunError (List Char) :=
  match getLanguageIdentifier path with
  | .error e => .error e
  | .ok identifier =>
    let trimmed := trimEnd contents
    let fence := getFence trimmed
    .ok ("### ".toList ++ path ++ "\n\n".toList ++ fence ++ identifier ++
      "\n".toList ++ trimmed ++ "\n".toList ++ fence)

/-- C6: when the language lookup succeeds, rendering a code file yields
exactly heading, blank line, fence + tag, the trailing-trimmed content, and
the closing fence, with the fence computed over the trimmed content; and the
trimmed content is a literal prefix of the input whose dropped suffix is
entirely whitespace. -/
theorem c6_renderCodeFile (path contents tag : List Char)
    (h : getLanguageIdentifier path = .ok tag) :
    renderCodeFile path contents =
      .ok ("### ".toList ++ path ++ "\n\n".toList ++ getFence (trimEnd contents) ++
        tag ++ "\n".toList ++ trimEnd contents ++ "\n".toList ++
        getFence (trimEnd contents)) ∧
    ∃ ws, contents = trimEnd contents ++ ws ∧ ws.all isJsWhitespace = true := by
  constructor
  · simp [renderCodeFile, h]
  · exact trimEnd_spec contents

/-- Witness for C6 at a concrete Rust path and content with a trailing
space and newline. -/
theorem c6_renderCodeFile_witness :
    renderCodeFile ("src/main.rs".toList) ("let x = 1; \n".toList) =
      .ok ("### ".toList ++ "src/main.rs".toList ++ "\n\n".toList ++
        getFence (trimEnd ("let x = 1; \n".toList)) ++ "rust".toList ++
        "\n".toList ++ trimEnd ("let x = 1; \n".toList) ++ "\n".toList ++
        getFence (trimEnd ("let x = 1; \n".toList))) :=
  (c6_renderCodeFile ("src/main.rs".toList) ("let x = 1; \n".toList)
    ("rust".toList) rfl).1

/-- C7: an extension outside the fixed mapping makes the language lookup —
and hence code rendering — fail with the unknown-language error carrying
that extension, and each mapped extension yields its fixed tag. -/
theorem c7_getLanguageIdentifier (path contents : List Char) :
    (extname path ∉ [".ts".toList, ".rs".toList, ".xml".toList, ".toml".toList] →
      getLanguageIdentifier path = .error (.unknownLanguage (extname path)) ∧
      renderCodeFile path contents = .error (.unknownLanguage (extname path))) ∧
    (extname path = ".ts".toList →
      getLanguageIdentifier path = .ok "typescript".toList) ∧
    (extname path = ".rs".toList →
      getLanguageIdentifier path = .ok "rust".toList) ∧
    (extname path = ".xml".toList →
      getLanguageIdentifier path = .ok "xml".toList) ∧
    (extname path = ".toml".toList →
      getLanguageIdentifier path = .ok "toml".toList) := by
  refine ⟨?_, ?_, ?_, ?_, ?_⟩
  · intro h
    simp only [List.mem_cons, List.not_mem_nil, or_false, not_or] at h
    obtain ⟨h1, h2, h3, h4⟩ := h
    constructor
    · simp only [getLanguageIdentifier]
      rw [if_neg h1, if_neg h2, if_neg h3, if_neg h4]
    · simp only [renderCodeFile, getLanguageIdentifier]
      rw [if_neg h1, if_neg h2, if_neg h3, if_neg h4]
  · intro h
    simp [getLanguageIdentifier, h]
  · intro h
    simp [getLanguageIdentifier, h]
  · intro h
    simp [getLanguageIdentifier, h]
  · intro h
    simp [getLanguageIdentifier, h]

/-- Witness for C7 at the unmapped extension ".py" and at the mapped
extension ".toml". -/
theorem c7_getLanguageIdentifier_witness :
    (getLanguageIdentifier ("foo.py".toList) =
        .error (.unknownLanguage (extname ("foo.py".toList))) ∧
      renderCodeFile ("foo.py".toList) ("x".toList) =
        .error (.unknownLanguage (extname ("foo.py".toList)))) ∧
    getLanguageIdentifier ("Cargo.toml".toList) = .ok "toml".toList :=
  ⟨(c7_getLanguageIdentifier ("foo.py".toList) ("x".toList)).1 (by decide),
   (c7_getLanguageIdentifier ("Cargo.toml".toList) ("x".toList)).2.2.2.2 (by decide)⟩

/-! ### Filesystem access: `fileExists` and
`includeCargoDependencyFileIfExists` -/

/-- Outcome of one `Deno.stat` call: success, the `Deno.errors.NotFound`
throw, or any other throw (carrying an abstract code). -/
inductive StatResult where
  | found
  | notFound
  | failed (code : Nat)
deriving DecidableEq, Repr

/-- The ambient effects: `Deno.stat` (with `resolvePath`'s URL resolution
folded in), `Deno.readTextFile`, and the external `unified` heading-shift
pipeline used by `shiftHeadings`. -/
structure Env where
  stat : List Char → StatResult
  readTextFile : List Char → Except RunError (List Char)
  mdTransform : List Char → Except RunError (List Char)

/-- `fileExists` from `AGENTS.ts`: `Deno.stat` in a `try`; a `NotFound`
throw becomes `false`, any other throw is re-thrown. -/
def fileExists (env : Env) (path : List Char) : Except RunError Bool :=
  match env.stat path with
  | .found => .ok true
  | .notFound => .ok false
  | .failed code => .error (.os code)

/-- `isMarkdownPath`: `path.toLowerCase().endsWith(".md")`. -/
def isMarkdownPath (path : List Char) : Bool :=
  ".md".toList.isSuffixOf (path.map Char.toLower)

/-- `shiftHeadings`: the external transform, then `trimEnd`. -/
def shiftHeadings (env : Env) (markdown : List Char) :
    Except RunError (List Char) :=
  match env.mdTransform markdown with
  | .error e => .error e
  | .ok s => .ok (trimEnd s)

/-- `renderFileContents` from `AGENTS.ts`. -/
def renderFileContents (env : Env) (path contents pathToRender : List Char) :
    Except RunError (List Char) :=
  if isMarkdownPath path then shiftHeadings env contents
  else renderCodeFile pathToRender contents

/-- Simplified model of `dirname` from `jsr:@std/path`: the part before the
last separator ("." when there is no separator). -/
def dirname (p : List Char) : List Char :=
  match p.reverse.dropWhile (fun c => c ≠ '/') with
  | [] => ".".toList
  | _ :: rest => if rest.isEmpty then "/".toList else rest.reverse

/-- Simplified model of `join` from `jsr:@std/path`: concatenation with one
separator. -/
def joinPath (a b : List Char) : List Char := a ++ '/' :: b

/-- A reference held by a `cargo metadata` resolve node. -/
structure CargoDependencyRef where
  name : List Char
  pkg : List Char
deriving DecidableEq, Repr

/-- A node of the `cargo metadata` resolve graph. -/
structure CargoNode where
  id : List Char
  deps : List CargoDependencyRef
deriving DecidableEq, Repr

/-- The `resolve` section of `cargo metadata` (unused by the selection). -/
structure CargoResolve where
  root : Option (List Char)
  nodes : List CargoNode
deriving DecidableEq, Repr

/-- The parsed `cargo metadata` output. -/
structure CargoMetadata where
  packages : List CargoPackage
  resolve : Option CargoResolve
deriving DecidableEq, Repr

/-- `includeCargoDependencyFileIfExists` from `AGENTS.ts`, with the awaited
metadata passed in. -/
def includeCargoDependencyFileIfExists (env : Env) (metadata : CargoMetadata)
    (dependencyName path : List Char) : Except RunError (Option (List Char)) :=
  let candidates := metadata.packages.filter (fun pkg => pkg.name == dependencyName)
  if candidates.isEmpty then .ok none
  else
    match select candidates with
    | none => .error (.cargoPackageNotFound dependencyName)
    | some cargoPackage =>
      let crateRoot := dirname cargoPackage.manifest_path
      let fullPath := joinPath crateRoot path
      match fileExists env fullPath with
      | .error e => .error e
      | .ok false => .ok none
      | .ok true =>
        match env.readTextFile fullPath with
        | .error e => .error e
        | .ok contents =>
          renderFileContents env path contents (dependencyName ++ '/' :: path)

/-- C8: a dependency name matching no package record yields the skip result
(`none`), and so does a requested file that does not exist at the selected
package's location; neither case is an error. -/
theorem c8_include_skip (env : Env) (metadata : CargoMetadata)
    (dependencyName path : List Char) :
    (metadata.packages.filter (fun pkg => pkg.name == dependencyName) = [] →
      includeCargoDependencyFileIfExists env metadata dependencyName path =
        .ok none) ∧
    ((∀ p, env.stat p = .notFound) →
      includeCargoDependencyFileIfExists env metadata dependencyName path =
        .ok none) := by
  constructor
  · intro h
    simp [includeCargoDependencyFileIfExists, h]
  · intro h
    by_cases hc : metadata.packages.filter (fun pkg => pkg.name == dependencyName) = []
    · simp [includeCargoDependencyFileIfExists, hc]
    · obtain ⟨r, hr, -, -⟩ := select_spec _ hc
      simp [includeCargoDependencyFileIfExists, hr, fileExists, h]

/-- A run in which every stat reports `NotFound`. -/
def envNotFound : Env :=
  ⟨fun _ => .notFound, fun _ => .error (.os 0), fun _ => .ok []⟩

/-- A run in which every stat fails with a non-NotFound error of code 7. -/
def envFail : Env :=
  ⟨fun _ => .failed 7, fun _ => .error (.os 0), fun _ => .ok []⟩

/-- A metadata graph holding only `pkgA` (named "errgonomic"). -/
def mdOnlyA : CargoMetadata := ⟨[pkgA], none⟩

/-- Witness for C8: a name absent from the graph, and a present name whose
requested file does not exist, both skip silently. -/
theorem c8_include_skip_witness :
    includeCargoDependencyFileIfExists envNotFound mdOnlyA
      ("missing".toList) ("DOCS.md".toList) = .ok none ∧
    includeCargoDependencyFileIfExists envNotFound mdOnlyA
      ("errgonomic".toList) ("DOCS.md".toList) = .ok none :=
  ⟨(c8_include_skip envNotFound mdOnlyA ("missing".toList) ("DOCS.md".toList)).1
      (by decide),
   (c8_include_skip envNotFound mdOnlyA ("errgonomic".toList)
      ("DOCS.md".toList)).2 (fun _ => rfl)⟩

/-- C10: `fileExists` reports `false` exactly on the not-found stat outcome,
`true` on success, and re-throws every other stat error. -/
theorem c10_fileExists (env : Env) (path : List Char) :
    (fileExists env path = .ok false ↔ env.stat path = .notFound) ∧
    (env.stat path = .found → fileExists env path = .ok true) ∧
    (∀ code, env.stat path = .failed code →
      fileExists env path = .error (.os code)) := by
  cases h : env.stat path with
  | found => simp [fileExists, h]
  | notFound => simp [fileExists, h]
  | failed code => simp [fileExists, h]

/-- Witness for C10: a failing stat propagates its error, a not-found stat
reports absence. -/
theorem c10_fileExists_witness :
    fileExists envFail ("x".toList) = .error (.os 7) ∧
    fileExists envNotFound ("x".toList) = .ok false :=
  ⟨(c10_fileExists envFail ("x".toList)).2.2 7 rfl,
   (c10_fileExists envNotFound ("x".toList)).1.mpr rfl⟩

end Agents
